import Mathlib

/-!
Shallow embedding of the inversion core of `DEPENDENCIES/inverse_dependencies.py`:
the damped least-squares solver `lsqr_solution`, the squared-residual evaluator
`residual`, and the damping-coefficient search `find_optimal_epsilon`.

Modelling choices:
* numpy float arrays are modelled with exact rational arithmetic: a matrix of
  shape (a, b) is `Matrix (Fin a) (Fin b) ℚ`, a vector of length n is
  `Fin n → ℚ` (so "the returned vector has length M" is expressed by the
  result type `Fin M → ℚ`).
* `np.linalg.inv` raises `LinAlgError` exactly on a singular input and
  otherwise returns the true inverse, computed here as `det⁻¹ • adjugate`.
* `np.dot` of an (a × b) matrix with a length-c vector raises a shape
  `ValueError` when `b ≠ c`; the dimension of `d` is a separate parameter so
  that mismatched calls are expressible.
* `np.argmin` on a list returns the first index attaining the minimum and
  raises `ValueError` on an empty list.
* fallible operations return `Except NpError`.
-/

open Matrix

namespace InvDeps

/-- The numeric failures the inversion core can raise: `LinAlgError` from
`np.linalg.inv` on a singular matrix, `ValueError` from a shape mismatch in
`np.dot` or from `np.argmin` on an empty sequence. -/
inductive NpError where
  | LinAlgError : NpError
  | ValueError : NpError
deriving DecidableEq, Repr

/-- `np.linalg.inv`: fails with `LinAlgError` on a singular matrix, otherwise
returns the inverse (computed as `det⁻¹ • adjugate`, which is the true inverse
when the determinant is nonzero). -/
def npInv {M : ℕ} (A : Matrix (Fin M) (Fin M) ℚ) :
    Except NpError (Matrix (Fin M) (Fin M) ℚ) :=
  if A.det = 0 then .error .LinAlgError else .ok ((A.det)⁻¹ • A.adjugate)

/-- `np.dot` of an (a × b) matrix with a length-c vector: a shape `ValueError`
unless `b = c`, otherwise the matrix-vector product. -/
def npDotMV {a b c : ℕ} (A : Matrix (Fin a) (Fin b) ℚ) (v : Fin c → ℚ) :
    Except NpError (Fin a → ℚ) :=
  if h : b = c then .ok (A.mulVec fun j => v (Fin.cast h j)) else .error .ValueError

/-- `lsqr_solution(G, d, epsilon)` from `inverse_dependencies.py`:
builds `A = G.T @ G + epsilon**2 * I`, inverts it with `np.linalg.inv`, and
returns `np.dot(np.dot(A_inv, G.T), d)`.  The length of `d` is the separate
parameter `nd`, so the shape check of the final `np.dot` (which the source
reaches only after the inversion) is part of the model. -/
def lsqr_solution {N M nd : ℕ} (G : Matrix (Fin N) (Fin M) ℚ) (d : Fin nd → ℚ)
    (ε : ℚ) : Except NpError (Fin M → ℚ) :=
  let A := Gᵀ * G + ε ^ 2 • (1 : Matrix (Fin M) (Fin M) ℚ)
  match npInv A with
  | .error e => .error e
  | .ok Ainv => npDotMV (Ainv * Gᵀ) d

/-- Squared Euclidean norm `‖v‖²` of a vector, as the sum of squared entries
(the exact-arithmetic value of `np.linalg.norm(v)**2`). -/
def sqnorm {n : ℕ} (v : Fin n → ℚ) : ℚ :=
  Finset.univ.sum fun i => v i ^ 2

/-- `residual(d, G, m)` from `inverse_dependencies.py`:
`np.linalg.norm(d - np.dot(G, m))**2`, the squared norm of the data misfit. -/
def residual {N M : ℕ} (d : Fin N → ℚ) (G : Matrix (Fin N) (Fin M) ℚ)
    (m : Fin M → ℚ) : ℚ :=
  sqnorm (d - G.mulVec m)

/-- The loop body of `find_optimal_epsilon`: for each candidate `ε` in order,
run `lsqr_solution` and record `np.abs(residual(d, G, m_est) - noise_norm**2)`;
the first failing solve aborts the loop with its error. -/
def scoresList {N M : ℕ} (G : Matrix (Fin N) (Fin M) ℚ) (d : Fin N → ℚ)
    (noise_norm : ℚ) : List ℚ → Except NpError (List ℚ)
  | [] => .ok []
  | ε :: rest =>
    match lsqr_solution G d ε with
    | .error e => .error e
    | .ok m_est =>
      match scoresList G d noise_norm rest with
      | .error e => .error e
      | .ok xs => .ok (|residual d G m_est - noise_norm ^ 2| :: xs)

/-- First index attaining the minimum of a list (`np.argmin` on a nonempty
list): the head wins ties against the rest, so the first minimum is returned. -/
def argminIdx : List ℚ → ℕ
  | [] => 0
  | [_] => 0
  | x :: y :: rest =>
    let j := argminIdx (y :: rest)
    if x ≤ (y :: rest).getD j 0 then 0 else j + 1

/-- `np.argmin`: `ValueError` on an empty sequence, otherwise the first index
attaining the minimum. -/
def npArgmin (xs : List ℚ) : Except NpError ℕ :=
  match xs with
  | [] => .error .ValueError
  | _ :: _ => .ok (argminIdx xs)

/-- `find_optimal_epsilon(G, d, epsilon_values, noise_norm)` from
`inverse_dependencies.py`: build the list of discrepancy scores, then return
`epsilon_values[np.argmin(residuals)]`. -/
def find_optimal_epsilon {N M : ℕ} (G : Matrix (Fin N) (Fin M) ℚ)
    (d : Fin N → ℚ) (epsilon_values : List ℚ) (noise_norm : ℚ) :
    Except NpError ℚ :=
  match scoresList G d noise_norm epsilon_values with
  | .error e => .error e
  | .ok residuals =>
    match npArgmin residuals with
    | .error e => .error e
    | .ok i => .ok (epsilon_values.getD i 0)

/-- The spec's closed-form ordinary-least-squares reference value
`(GᵀG)⁻¹ · Gᵀ · d` (spec §8, property 1), written with the mathematical
matrix inverse; it is the comparison point for the zero-damping refinement
claim, not a translation of repository code. -/
noncomputable def ols_solution {N M : ℕ} (G : Matrix (Fin N) (Fin M) ℚ)
    (d : Fin N → ℚ) : Fin M → ℚ :=
  ((Gᵀ * G)⁻¹ * Gᵀ).mulVec d

/-! ### Helper lemmas about the embedded operations -/

/-- `sqnorm` is the self dot product. -/
lemma sqnorm_eq_dot {n : ℕ} (v : Fin n → ℚ) : sqnorm v = v ⬝ᵥ v := by
  simp [sqnorm, dotProduct, sq]

/-- `sqnorm` is nonnegative. -/
lemma sqnorm_nonneg {n : ℕ} (v : Fin n → ℚ) : 0 ≤ sqnorm v :=
  Finset.sum_nonneg fun i _ => sq_nonneg (v i)

/-- `sqnorm v = 0` iff `v = 0`. -/
lemma sqnorm_eq_zero_iff {n : ℕ} (v : Fin n → ℚ) : sqnorm v = 0 ↔ v = 0 := by
  rw [sqnorm_eq_dot]
  exact Matrix.dotProduct_self_eq_zero

/-- The regularized normal matrix is symmetric. -/
lemma Amat_transpose {N M : ℕ} (G : Matrix (Fin N) (Fin M) ℚ) (ε : ℚ) :
    (Gᵀ * G + ε ^ 2 • (1 : Matrix (Fin M) (Fin M) ℚ))ᵀ
      = Gᵀ * G + ε ^ 2 • (1 : Matrix (Fin M) (Fin M) ℚ) := by
  simp [Matrix.transpose_add, Matrix.transpose_mul, Matrix.transpose_smul]

/-- The quadratic form of the regularized normal matrix is nonnegative:
`x ⬝ (GᵀG + ε²I) x = ‖Gx‖² + ε²‖x‖² ≥ 0`. -/
lemma quad_nonneg {N M : ℕ} (G : Matrix (Fin N) (Fin M) ℚ) (ε : ℚ)
    (x : Fin M → ℚ) :
    0 ≤ x ⬝ᵥ (Gᵀ * G + ε ^ 2 • (1 : Matrix (Fin M) (Fin M) ℚ)).mulVec x := by
  have h1 : x ⬝ᵥ (Gᵀ * G).mulVec x = (G.mulVec x) ⬝ᵥ (G.mulVec x) := by
    rw [← Matrix.mulVec_mulVec, Matrix.dotProduct_mulVec, Matrix.vecMul_transpose]
  have h2 : x ⬝ᵥ (ε ^ 2 • (1 : Matrix (Fin M) (Fin M) ℚ)).mulVec x
      = ε ^ 2 * (x ⬝ᵥ x) := by
    rw [Matrix.smul_mulVec_assoc, Matrix.one_mulVec, Matrix.dotProduct_smul,
      smul_eq_mul]
  rw [Matrix.add_mulVec, Matrix.dotProduct_add, h1, h2]
  have hx : 0 ≤ (G.mulVec x) ⬝ᵥ (G.mulVec x) := by
    rw [← sqnorm_eq_dot]; exact sqnorm_nonneg _
  have hx2 : 0 ≤ ε ^ 2 * (x ⬝ᵥ x) := by
    apply mul_nonneg (sq_nonneg ε)
    rw [← sqnorm_eq_dot]; exact sqnorm_nonneg _
  linarith

/-- When the regularized normal matrix is invertible, `lsqr_solution` succeeds
with exactly the spec's closed-form value. -/
lemma lsqr_eq_ok_of_det_ne {N M : ℕ} (G : Matrix (Fin N) (Fin M) ℚ)
    (d : Fin N → ℚ) (ε : ℚ)
    (h : (Gᵀ * G + ε ^ 2 • (1 : Matrix (Fin M) (Fin M) ℚ)).det ≠ 0) :
    lsqr_solution G d ε =
      .ok (((Gᵀ * G + ε ^ 2 • (1 : Matrix (Fin M) (Fin M) ℚ))⁻¹ * Gᵀ).mulVec d) := by
  unfold lsqr_solution npInv npDotMV
  simp only [h, if_false, dif_pos rfl]
  rw [Matrix.inv_def, Ring.inverse_eq_inv]
  rfl

/-- When the regularized normal matrix is singular, `lsqr_solution` fails with
`LinAlgError` (for any length of `d`). -/
lemma lsqr_error_of_det_eq {N M nd : ℕ} (G : Matrix (Fin N) (Fin M) ℚ)
    (d : Fin nd → ℚ) (ε : ℚ)
    (h : (Gᵀ * G + ε ^ 2 • (1 : Matrix (Fin M) (Fin M) ℚ)).det = 0) :
    lsqr_solution G d ε = .error .LinAlgError := by
  unfold lsqr_solution npInv
  simp only [h, if_true]

/-- With matching dimensions, a successful solve satisfies the normal
equations `(GᵀG + ε²I) m = Gᵀ d`, and the normal matrix has nonzero
determinant. -/
lemma lsqr_ok_normalEq {N M : ℕ} {G : Matrix (Fin N) (Fin M) ℚ}
    {d : Fin N → ℚ} {ε : ℚ} {m : Fin M → ℚ}
    (h : lsqr_solution G d ε = .ok m) :
    (Gᵀ * G + ε ^ 2 • (1 : Matrix (Fin M) (Fin M) ℚ)).det ≠ 0 ∧
      (Gᵀ * G + ε ^ 2 • (1 : Matrix (Fin M) (Fin M) ℚ)).mulVec m = Gᵀ.mulVec d := by
  by_cases hd : (Gᵀ * G + ε ^ 2 • (1 : Matrix (Fin M) (Fin M) ℚ)).det = 0
  · rw [lsqr_error_of_det_eq G d ε hd] at h
    exact absurd h (by simp)
  · rw [lsqr_eq_ok_of_det_ne G d ε hd] at h
    refine ⟨hd, ?_⟩
    have hm : m = ((Gᵀ * G + ε ^ 2 • (1 : Matrix (Fin M) (Fin M) ℚ))⁻¹ * Gᵀ).mulVec d := by
      simpa using h.symm
    subst hm
    rw [Matrix.mulVec_mulVec, ← Matrix.mul_assoc,
      Matrix.mul_nonsing_inv _ (isUnit_iff_ne_zero.mpr hd), Matrix.one_mul]

/-- With matching dimensions, `lsqr_solution` can only fail with
`LinAlgError`. -/
lemma lsqr_matched_error {N M : ℕ} {G : Matrix (Fin N) (Fin M) ℚ}
    {d : Fin N → ℚ} {ε : ℚ} {e : NpError}
    (h : lsqr_solution G d ε = .error e) : e = .LinAlgError := by
  by_cases hd : (Gᵀ * G + ε ^ 2 • (1 : Matrix (Fin M) (Fin M) ℚ)).det = 0
  · rw [lsqr_error_of_det_eq G d ε hd] at h
    simpa using h.symm
  · rw [lsqr_eq_ok_of_det_ne G d ε hd] at h
    exact absurd h (by simp)

/-- `argminIdx` of a nonempty list is in range, attains the minimum, and is
the first index doing so. -/
lemma argminIdx_spec : ∀ xs : List ℚ, xs ≠ [] →
    argminIdx xs < xs.length ∧
    (∀ j, j < xs.length → xs.getD (argminIdx xs) 0 ≤ xs.getD j 0) ∧
    (∀ j, j < argminIdx xs → xs.getD (argminIdx xs) 0 < xs.getD j 0)
  | [], h => absurd rfl h
  | [x], _ => by
    refine ⟨by simp [argminIdx], ?_, ?_⟩
    · intro j hj
      have hj0 : j = 0 := Nat.lt_one_iff.mp (by simpa using hj)
      subst hj0
      simp [argminIdx]
    · intro j hj
      simp [argminIdx] at hj
  | x :: y :: rest, _ => by
    obtain ⟨ih1, ih2, ih3⟩ := argminIdx_spec (y :: rest) (by simp)
    by_cases hx : x ≤ (y :: rest).getD (argminIdx (y :: rest)) 0
    · have harg : argminIdx (x :: y :: rest) = 0 := by
        simp only [argminIdx]
        rw [if_pos hx]
      refine ⟨by simp [harg], ?_, ?_⟩
      · intro j hj
        rw [harg, List.getD_cons_zero]
        match j with
        | 0 => simp
        | j + 1 =>
          rw [List.getD_cons_succ]
          exact le_trans hx (ih2 j (by simpa using hj))
      · intro j hj
        rw [harg] at hj
        exact absurd hj (Nat.not_lt_zero j)
    · have harg : argminIdx (x :: y :: rest) = argminIdx (y :: rest) + 1 := by
        simp only [argminIdx]
        rw [if_neg hx]
      refine ⟨by simpa [harg] using ih1, ?_, ?_⟩
      · intro j hj
        rw [harg, List.getD_cons_succ]
        match j with
        | 0 =>
          rw [List.getD_cons_zero]
          exact le_of_lt (lt_of_not_le hx)
        | j + 1 =>
          rw [List.getD_cons_succ]
          exact ih2 j (by simpa using hj)
      · intro j hj
        rw [harg] at hj
        rw [harg, List.getD_cons_succ]
        match j with
        | 0 =>
          rw [List.getD_cons_zero]
          exact lt_of_not_le hx
        | j + 1 =>
          rw [List.getD_cons_succ]
          exact ih3 j (by simpa using hj)

/-- A successful `scoresList` has one score per candidate. -/
lemma scoresList_length {N M : ℕ} {G : Matrix (Fin N) (Fin M) ℚ}
    {d : Fin N → ℚ} {nn : ℚ} :
    ∀ {l : List ℚ} {s : List ℚ}, scoresList G d nn l = .ok s → s.length = l.length := by
  intro l
  induction l with
  | nil =>
    intro s hs
    simp only [scoresList] at hs
    cases hs
    rfl
  | cons ε rest ih =>
    intro s hs
    simp only [scoresList] at hs
    cases hls : lsqr_solution G d ε with
    | error e => rw [hls] at hs; exact absurd hs (by simp)
    | ok m =>
      rw [hls] at hs
      cases hrest : scoresList G d nn rest with
      | error e => rw [hrest] at hs; exact absurd hs (by simp)
      | ok xs =>
        rw [hrest] at hs
        cases hs
        simp [ih hrest]

/-- Each entry of a successful `scoresList` is the discrepancy score
`|residual(d, G, solve(G, d, ε_j)) - noise_norm²|` of the j-th candidate. -/
lemma scoresList_getD {N M : ℕ} {G : Matrix (Fin N) (Fin M) ℚ}
    {d : Fin N → ℚ} {nn : ℚ} :
    ∀ {l : List ℚ} {s : List ℚ}, scoresList G d nn l = .ok s →
      ∀ j, j < l.length → ∃ m_est,
        lsqr_solution G d (l.getD j 0) = .ok m_est ∧
        s.getD j 0 = |residual d G m_est - nn ^ 2| := by
  intro l
  induction l with
  | nil =>
    intro s _ j hj
    exact absurd hj (by simp)
  | cons ε rest ih =>
    intro s hs j hj
    simp only [scoresList] at hs
    cases hls : lsqr_solution G d ε with
    | error e => rw [hls] at hs; exact absurd hs (by simp)
    | ok m =>
      rw [hls] at hs
      cases hrest : scoresList G d nn rest with
      | error e => rw [hrest] at hs; exact absurd hs (by simp)
      | ok xs =>
        rw [hrest] at hs
        cases hs
        match j with
        | 0 => exact ⟨m, by simpa using hls, by simp⟩
        | j + 1 =>
          obtain ⟨m', hm', hx⟩ := ih hrest j (by simpa using hj)
          exact ⟨m', by simpa using hm', by simpa using hx⟩

/-- If some candidate's normal matrix is singular, the score loop aborts with
`LinAlgError` (matched dimensions: no other failure can occur). -/
lemma scoresList_error_of_singular {N M : ℕ} {G : Matrix (Fin N) (Fin M) ℚ}
    {d : Fin N → ℚ} {nn : ℚ} {ε : ℚ} :
    ∀ {l : List ℚ}, ε ∈ l →
      (Gᵀ * G + ε ^ 2 • (1 : Matrix (Fin M) (Fin M) ℚ)).det = 0 →
      scoresList G d nn l = .error .LinAlgError := by
  intro l
  induction l with
  | nil => intro h; exact absurd h (by simp)
  | cons a rest ih =>
    intro hmem hdet
    cases hls : lsqr_solution G d a with
    | error e =>
      have := lsqr_matched_error hls
      subst this
      simp only [scoresList, hls]
    | ok m =>
      rcases List.mem_cons.mp hmem with heq | hmem'
      · subst heq
        rw [lsqr_error_of_det_eq G d _ hdet] at hls
        exact absurd hls (by simp)
      · simp only [scoresList, hls, ih hmem' hdet]

/-- For a symmetric matrix the quadratic pairing is symmetric in its two
vector arguments. -/
lemma dot_mulVec_symm {n : ℕ} (A : Matrix (Fin n) (Fin n) ℚ) (hA : Aᵀ = A)
    (x y : Fin n → ℚ) : x ⬝ᵥ A.mulVec y = y ⬝ᵥ A.mulVec x := by
  rw [Matrix.dotProduct_mulVec]
  rw [show x ᵥ* A = x ᵥ* Aᵀ by rw [hA], Matrix.vecMul_transpose]
  exact Matrix.dotProduct_comm _ _

/-- Expansion of the damped least-squares objective into the quadratic form of
the regularized normal matrix. -/
lemma objective_expand {N M : ℕ} (G : Matrix (Fin N) (Fin M) ℚ)
    (d : Fin N → ℚ) (ε : ℚ) (m : Fin M → ℚ) :
    sqnorm (G.mulVec m - d) + ε ^ 2 * sqnorm m =
      m ⬝ᵥ (Gᵀ * G + ε ^ 2 • (1 : Matrix (Fin M) (Fin M) ℚ)).mulVec m
        - 2 * ((Gᵀ.mulVec d) ⬝ᵥ m) + d ⬝ᵥ d := by
  have h1 : m ⬝ᵥ (Gᵀ * G).mulVec m = (G.mulVec m) ⬝ᵥ (G.mulVec m) := by
    rw [← Matrix.mulVec_mulVec, Matrix.dotProduct_mulVec, Matrix.vecMul_transpose]
  have h2 : m ⬝ᵥ (ε ^ 2 • (1 : Matrix (Fin M) (Fin M) ℚ)).mulVec m
      = ε ^ 2 * (m ⬝ᵥ m) := by
    rw [Matrix.smul_mulVec_assoc, Matrix.one_mulVec, Matrix.dotProduct_smul,
      smul_eq_mul]
  have h3 : d ⬝ᵥ G.mulVec m = (Gᵀ.mulVec d) ⬝ᵥ m := by
    rw [Matrix.dotProduct_mulVec, ← Matrix.mulVec_transpose]
  have h4 : (G.mulVec m) ⬝ᵥ d = (Gᵀ.mulVec d) ⬝ᵥ m := by
    rw [Matrix.dotProduct_comm]; exact h3
  rw [sqnorm_eq_dot, sqnorm_eq_dot, Matrix.add_mulVec, Matrix.dotProduct_add,
    h1, h2, Matrix.dotProduct_sub, Matrix.sub_dotProduct, Matrix.sub_dotProduct,
    h4, h3]
  ring

/-- Expansion of the quadratic form of a symmetric matrix at a difference of
vectors. -/
lemma quad_sub_expand {n : ℕ} (A : Matrix (Fin n) (Fin n) ℚ) (hA : Aᵀ = A)
    (x y : Fin n → ℚ) :
    (x - y) ⬝ᵥ A.mulVec (x - y) =
      x ⬝ᵥ A.mulVec x - 2 * (x ⬝ᵥ A.mulVec y) + y ⬝ᵥ A.mulVec y := by
  rw [Matrix.mulVec_sub, Matrix.dotProduct_sub, Matrix.sub_dotProduct,
    Matrix.sub_dotProduct, dot_mulVec_symm A hA y x]
  ring

/-- The noise norm enters the score loop only through its square. -/
lemma scoresList_neg {N M : ℕ} (G : Matrix (Fin N) (Fin M) ℚ) (d : Fin N → ℚ)
    (nn : ℚ) : ∀ l : List ℚ, scoresList G d (-nn) l = scoresList G d nn l := by
  intro l
  induction l with
  | nil => rfl
  | cons ε rest ih => simp only [scoresList, neg_sq, ih]

/-! ### Claim theorems -/

/-- C1: for every N×M matrix `G`, length-N vector `d` and damping `ε` (such
that the regularized normal matrix is invertible, which is when the source's
`np.linalg.inv` call is defined), `lsqr_solution` returns exactly
`(GᵀG + ε²·I_M)⁻¹ · Gᵀ · d`; the result lives in `Fin M → ℚ`, i.e. it has
length `M`, the column count of `G`. -/
theorem C1_solve_closed_form {N M : ℕ} (G : Matrix (Fin N) (Fin M) ℚ)
    (d : Fin N → ℚ) (ε : ℚ)
    (h : (Gᵀ * G + ε ^ 2 • (1 : Matrix (Fin M) (Fin M) ℚ)).det ≠ 0) :
    lsqr_solution G d ε =
      .ok (((Gᵀ * G + ε ^ 2 • (1 : Matrix (Fin M) (Fin M) ℚ))⁻¹ * Gᵀ).mulVec d) :=
  lsqr_eq_ok_of_det_ne G d ε h

/-- Witness for C1 at `G = [[1]]`, `d = [2]`, `ε = 0`. -/
theorem C1_solve_closed_form_witness :
    ((!![(1 : ℚ)])ᵀ * !![(1 : ℚ)] + (0 : ℚ) ^ 2 • (1 : Matrix (Fin 1) (Fin 1) ℚ)).det ≠ 0 ∧
    lsqr_solution !![(1 : ℚ)] ![2] 0 =
      .ok ((((!![(1 : ℚ)])ᵀ * !![(1 : ℚ)] + (0 : ℚ) ^ 2 • (1 : Matrix (Fin 1) (Fin 1) ℚ))⁻¹
        * (!![(1 : ℚ)])ᵀ).mulVec ![2]) := by
  have h : ((!![(1 : ℚ)])ᵀ * !![(1 : ℚ)]
      + (0 : ℚ) ^ 2 • (1 : Matrix (Fin 1) (Fin 1) ℚ)).det ≠ 0 := by
    norm_num [Matrix.det_fin_one, Matrix.mul_apply, Fin.sum_univ_succ]
  exact ⟨h, C1_solve_closed_form !![(1 : ℚ)] ![2] 0 h⟩

/-- C3: `residual(d, G, m)` is the squared Euclidean norm `‖d − G·m‖²`, hence
nonnegative, and zero exactly when `G·m` reproduces `d`. -/
theorem C3_residual_spec {N M : ℕ} (d : Fin N → ℚ) (G : Matrix (Fin N) (Fin M) ℚ)
    (m : Fin M → ℚ) :
    residual d G m = sqnorm (d - G.mulVec m) ∧
    0 ≤ residual d G m ∧
    (residual d G m = 0 ↔ G.mulVec m = d) := by
  refine ⟨rfl, sqnorm_nonneg _, ?_⟩
  rw [residual, sqnorm_eq_zero_iff, sub_eq_zero]
  exact eq_comm

/-- C9: `lsqr_solution` is an even function of the damping coefficient: a
negative `ε` is accepted and gives the same outcome as `ε`, because `ε`
enters only through `ε²` (this holds for every shape of `d`, errors
included). -/
theorem C9_solve_even {N M nd : ℕ} (G : Matrix (Fin N) (Fin M) ℚ)
    (d : Fin nd → ℚ) (ε : ℚ) :
    lsqr_solution G d (-ε) = lsqr_solution G d ε := by
  simp only [lsqr_solution, neg_sq]

/-- C10: `find_optimal_epsilon` is an even function of the noise norm: a
negative `noise_norm` is accepted and gives the same outcome, because
`noise_norm` enters the discrepancy score only through its square. -/
theorem C10_search_even {N M : ℕ} (G : Matrix (Fin N) (Fin M) ℚ)
    (d : Fin N → ℚ) (epsilon_values : List ℚ) (noise_norm : ℚ) :
    find_optimal_epsilon G d epsilon_values (-noise_norm) =
      find_optimal_epsilon G d epsilon_values noise_norm := by
  unfold find_optimal_epsilon
  rw [scoresList_neg]

/-- C5: when the regularized normal matrix `GᵀG + ε²I` is singular,
`lsqr_solution` fails with the singular-matrix error (`LinAlgError` from
`np.linalg.inv`); and when a singular candidate occurs inside
`find_optimal_epsilon`, the search fails with that same error instead of
returning any candidate. -/
theorem C5_singular_failure {N M : ℕ} (G : Matrix (Fin N) (Fin M) ℚ)
    (d : Fin N → ℚ) (ε noise_norm : ℚ) (epsilon_values : List ℚ) :
    ((Gᵀ * G + ε ^ 2 • (1 : Matrix (Fin M) (Fin M) ℚ)).det = 0 →
      lsqr_solution G d ε = .error .LinAlgError) ∧
    (ε ∈ epsilon_values →
      (Gᵀ * G + ε ^ 2 • (1 : Matrix (Fin M) (Fin M) ℚ)).det = 0 →
      find_optimal_epsilon G d epsilon_values noise_norm = .error .LinAlgError) := by
  refine ⟨lsqr_error_of_det_eq G d ε, fun hmem hdet => ?_⟩
  unfold find_optimal_epsilon
  rw [scoresList_error_of_singular hmem hdet]

/-- Witness for C5 at the rank-deficient `G = [[1,1],[1,1]]` with `ε = 0`. -/
theorem C5_singular_failure_witness :
    lsqr_solution !![(1 : ℚ), 1; 1, 1] ![1, 2] 0 = .error .LinAlgError ∧
    find_optimal_epsilon !![(1 : ℚ), 1; 1, 1] ![1, 2] [0] 0 = .error .LinAlgError := by
  have hdet : ((!![(1 : ℚ), 1; 1, 1])ᵀ * !![(1 : ℚ), 1; 1, 1]
      + (0 : ℚ) ^ 2 • (1 : Matrix (Fin 2) (Fin 2) ℚ)).det = 0 := by
    norm_num [Matrix.det_fin_two, Matrix.mul_apply, Fin.sum_univ_succ]
  exact ⟨(C5_singular_failure !![(1 : ℚ), 1; 1, 1] ![1, 2] 0 0 [0]).1 hdet,
    (C5_singular_failure !![(1 : ℚ), 1; 1, 1] ![1, 2] 0 0 [0]).2 (by simp) hdet⟩

/-- C4: for `ε ≥ 0` with `GᵀG + ε²I` invertible (i.e. whenever the solve
succeeds), the vector returned by `lsqr_solution` minimizes the Tikhonov
functional `‖Gm − d‖² + ε²‖m‖²` over all length-M vectors `m`. -/
theorem C4_minimizer {N M : ℕ} (G : Matrix (Fin N) (Fin M) ℚ) (d : Fin N → ℚ)
    (ε : ℚ) (mstar : Fin M → ℚ) (hε : 0 ≤ ε)
    (h : lsqr_solution G d ε = .ok mstar) (m : Fin M → ℚ) :
    sqnorm (G.mulVec mstar - d) + ε ^ 2 * sqnorm mstar ≤
      sqnorm (G.mulVec m - d) + ε ^ 2 * sqnorm m := by
  obtain ⟨hdet, hnorm⟩ := lsqr_ok_normalEq h
  have e1 := objective_expand G d ε m
  have e2 := objective_expand G d ε mstar
  have hq := quad_nonneg G ε (m - mstar)
  rw [quad_sub_expand _ (Amat_transpose G ε) m mstar] at hq
  have hb1 : m ⬝ᵥ (Gᵀ * G + ε ^ 2 • (1 : Matrix (Fin M) (Fin M) ℚ)).mulVec mstar
      = (Gᵀ.mulVec d) ⬝ᵥ m := by
    rw [hnorm]
    exact Matrix.dotProduct_comm _ _
  have hb2 : mstar ⬝ᵥ (Gᵀ * G + ε ^ 2 • (1 : Matrix (Fin M) (Fin M) ℚ)).mulVec mstar
      = (Gᵀ.mulVec d) ⬝ᵥ mstar := by
    rw [hnorm]
    exact Matrix.dotProduct_comm _ _
  rw [hb1, hb2] at hq
  rw [hb2] at e2
  linarith

/-- Witness for C4 at `G = [[1]]`, `d = [2]`, `ε = 1`, compared against
`m = [0]`. -/
theorem C4_minimizer_witness :
    (0 : ℚ) ≤ 1 ∧
    lsqr_solution !![(1 : ℚ)] ![2] 1 = .ok ![1] ∧
    sqnorm ((!![(1 : ℚ)]).mulVec ![1] - ![2]) + (1 : ℚ) ^ 2 * sqnorm ![1] ≤
      sqnorm ((!![(1 : ℚ)]).mulVec ![0] - ![2]) + (1 : ℚ) ^ 2 * sqnorm ![0] := by
  have hsolve : lsqr_solution !![(1 : ℚ)] ![2] 1 = .ok ![1] := by
    norm_num [lsqr_solution, npInv, npDotMV, Matrix.det_fin_one,
      Matrix.adjugate_fin_one, Matrix.mul_apply, Fin.sum_univ_succ]
    funext i
    fin_cases i
    norm_num [Matrix.mulVec, Matrix.dotProduct, Matrix.mul_apply,
      Fin.sum_univ_succ, Matrix.vecHead, Matrix.vecTail, Matrix.transpose_apply,
      Matrix.smul_apply]
  exact ⟨by norm_num, hsolve,
    C4_minimizer !![(1 : ℚ)] ![2] 1 ![1] (by norm_num) hsolve ![0]⟩

/-- C7: for overdetermined `G` (N > M) of full column rank, the damped solver
at `ε = 0` coincides with the spec's closed-form ordinary-least-squares
reference `(GᵀG)⁻¹ Gᵀ d`.  Full column rank is stated as injectivity of
`x ↦ G·x` (the columns of `G` are linearly independent). -/
theorem C7_zero_damping_is_ols {N M : ℕ} (G : Matrix (Fin N) (Fin M) ℚ)
    (d : Fin N → ℚ) (hNM : M < N)
    (hrank : ∀ x : Fin M → ℚ, G.mulVec x = 0 → x = 0) :
    lsqr_solution G d 0 = .ok (ols_solution G d) := by
  have hA : Gᵀ * G + (0 : ℚ) ^ 2 • (1 : Matrix (Fin M) (Fin M) ℚ) = Gᵀ * G := by
    norm_num
  have hdet : (Gᵀ * G).det ≠ 0 := by
    intro h0
    obtain ⟨v, hv, hv0⟩ := Matrix.exists_mulVec_eq_zero_iff.mpr h0
    refine hv (hrank v ?_)
    have hq : v ⬝ᵥ (Gᵀ * G).mulVec v = 0 := by rw [hv0]; simp
    rw [← Matrix.mulVec_mulVec, Matrix.dotProduct_mulVec,
      Matrix.vecMul_transpose] at hq
    exact Matrix.dotProduct_self_eq_zero.mp hq
  rw [lsqr_eq_ok_of_det_ne G d 0 (by rw [hA]; exact hdet), hA, ols_solution]

/-- Witness for C7 at the overdetermined full-column-rank `G = [[1],[1]]`,
`d = [1,3]`. -/
theorem C7_zero_damping_is_ols_witness :
    1 < 2 ∧
    lsqr_solution !![(1 : ℚ); 1] ![1, 3] 0 = .ok (ols_solution !![(1 : ℚ); 1] ![1, 3]) := by
  refine ⟨by norm_num, C7_zero_damping_is_ols !![(1 : ℚ); 1] ![1, 3] (by norm_num) ?_⟩
  intro x hx
  funext i
  fin_cases i
  have h0 := congrFun hx 0
  simpa [Matrix.mulVec, Matrix.dotProduct, Fin.sum_univ_succ] using h0

/-- C8: monotone shrinkage of the regularized solution norm.  For fixed `G`
and `d` and `0 ≤ ε₁ ≤ ε₂` with both solves succeeding, the solution at the
larger damping has the smaller (squared) Euclidean norm; comparing squared
norms is equivalent to comparing the norms themselves, which are their
nonnegative square roots. -/
theorem C8_monotone_shrinkage {N M : ℕ} (G : Matrix (Fin N) (Fin M) ℚ)
    (d : Fin N → ℚ) (ε₁ ε₂ : ℚ) (m₁ m₂ : Fin M → ℚ)
    (h0 : 0 ≤ ε₁) (h12 : ε₁ ≤ ε₂)
    (h1 : lsqr_solution G d ε₁ = .ok m₁)
    (h2 : lsqr_solution G d ε₂ = .ok m₂) :
    sqnorm m₂ ≤ sqnorm m₁ := by
  obtain ⟨hdet1, hn1⟩ := lsqr_ok_normalEq h1
  obtain ⟨_, hn2⟩ := lsqr_ok_normalEq h2
  have hδ0 : 0 ≤ ε₂ ^ 2 - ε₁ ^ 2 := by
    have := pow_le_pow_left₀ h0 h12 2
    linarith
  have hA2 : Gᵀ * G + ε₂ ^ 2 • (1 : Matrix (Fin M) (Fin M) ℚ)
      = (Gᵀ * G + ε₁ ^ 2 • (1 : Matrix (Fin M) (Fin M) ℚ))
        + (ε₂ ^ 2 - ε₁ ^ 2) • (1 : Matrix (Fin M) (Fin M) ℚ) := by
    rw [add_assoc, ← add_smul]
    ring_nf
  have hkey : (Gᵀ * G + ε₁ ^ 2 • (1 : Matrix (Fin M) (Fin M) ℚ)).mulVec (m₁ - m₂)
      = (ε₂ ^ 2 - ε₁ ^ 2) • m₂ := by
    rw [hA2, Matrix.add_mulVec, Matrix.smul_mulVec_assoc, Matrix.one_mulVec] at hn2
    rw [Matrix.mulVec_sub, hn1, ← hn2]
    abel
  have hpos : 0 ≤ m₂ ⬝ᵥ (m₁ - m₂) := by
    rcases eq_or_lt_of_le hδ0 with hδeq | hδlt
    · have hz : (Gᵀ * G + ε₁ ^ 2 • (1 : Matrix (Fin M) (Fin M) ℚ)).mulVec (m₁ - m₂) = 0 := by
        rw [hkey, ← hδeq, zero_smul]
      have hsub : m₁ - m₂ = 0 := by
        by_contra hne
        exact hdet1 (Matrix.exists_mulVec_eq_zero_iff.mp ⟨m₁ - m₂, hne, hz⟩)
      rw [hsub]
      simp
    · calc (0 : ℚ) ≤ (ε₂ ^ 2 - ε₁ ^ 2)⁻¹
            * ((m₁ - m₂) ⬝ᵥ (Gᵀ * G + ε₁ ^ 2 • (1 : Matrix (Fin M) (Fin M) ℚ)).mulVec (m₁ - m₂)) :=
          mul_nonneg (inv_nonneg.mpr (le_of_lt hδlt)) (quad_nonneg G ε₁ (m₁ - m₂))
        _ = m₂ ⬝ᵥ (m₁ - m₂) := by
          rw [hkey, Matrix.dotProduct_smul, smul_eq_mul, ← mul_assoc,
            inv_mul_cancel₀ (ne_of_gt hδlt), one_mul, Matrix.dotProduct_comm]
  have hcs : (m₂ ⬝ᵥ m₁) ^ 2 ≤ sqnorm m₂ * sqnorm m₁ := by
    have h := Finset.sum_mul_sq_le_sq_mul_sq Finset.univ m₂ m₁
    simpa [sqnorm, dotProduct] using h
  have hlow : sqnorm m₂ ≤ m₂ ⬝ᵥ m₁ := by
    have hsplit : m₂ ⬝ᵥ m₁ = m₂ ⬝ᵥ m₂ + m₂ ⬝ᵥ (m₁ - m₂) := by
      rw [Matrix.dotProduct_sub]
      ring
    rw [hsplit, ← sqnorm_eq_dot]
    linarith
  have h2n := sqnorm_nonneg m₂
  have h1n := sqnorm_nonneg m₁
  rcases eq_or_lt_of_le h2n with heq | hpos2
  · rw [← heq]
    exact h1n
  · have ht2 : sqnorm m₂ ^ 2 ≤ (m₂ ⬝ᵥ m₁) ^ 2 := by nlinarith
    nlinarith

/-- Witness for C8 at `G = [[1]]`, `d = [2]`, `ε₁ = 0`, `ε₂ = 1`. -/
theorem C8_monotone_shrinkage_witness :
    lsqr_solution !![(1 : ℚ)] ![2] 0 = .ok ![2] ∧
    lsqr_solution !![(1 : ℚ)] ![2] 1 = .ok ![1] ∧
    sqnorm ![(1 : ℚ)] ≤ sqnorm ![(2 : ℚ)] := by
  have hs0 : lsqr_solution !![(1 : ℚ)] ![2] 0 = .ok ![2] := by
    norm_num [lsqr_solution, npInv, npDotMV, Matrix.det_fin_one,
      Matrix.adjugate_fin_one, Matrix.mul_apply, Fin.sum_univ_succ]
    funext i
    fin_cases i
    norm_num [Matrix.mulVec, Matrix.dotProduct, Matrix.mul_apply,
      Fin.sum_univ_succ, Matrix.vecHead, Matrix.vecTail, Matrix.transpose_apply,
      Matrix.smul_apply]
  have hs1 : lsqr_solution !![(1 : ℚ)] ![2] 1 = .ok ![1] := by
    norm_num [lsqr_solution, npInv, npDotMV, Matrix.det_fin_one,
      Matrix.adjugate_fin_one, Matrix.mul_apply, Fin.sum_univ_succ]
    funext i
    fin_cases i
    norm_num [Matrix.mulVec, Matrix.dotProduct, Matrix.mul_apply,
      Fin.sum_univ_succ, Matrix.vecHead, Matrix.vecTail, Matrix.transpose_apply,
      Matrix.smul_apply]
  exact ⟨hs0, hs1,
    C8_monotone_shrinkage !![(1 : ℚ)] ![2] 0 1 ![2] ![1] (by norm_num)
      (by norm_num) hs0 hs1⟩

/-- C2: on a nonempty candidate list whose solves all succeed (so the score
list is computed), `find_optimal_epsilon` scores each candidate in the
supplied order by `|residual(d, G, solve(G, d, ε)) − noise_norm²|` and returns
the candidate at the first index attaining the minimum score (first-argmin
tie-break); the returned value is a member of `epsilon_values`. -/
theorem C2_first_argmin {N M : ℕ} (G : Matrix (Fin N) (Fin M) ℚ)
    (d : Fin N → ℚ) (epsilon_values : List ℚ) (noise_norm : ℚ)
    (scores : List ℚ)
    (hs : scoresList G d noise_norm epsilon_values = .ok scores)
    (hne : epsilon_values ≠ []) :
    ∃ i, i < epsilon_values.length ∧
      find_optimal_epsilon G d epsilon_values noise_norm =
        .ok (epsilon_values.getD i 0) ∧
      epsilon_values.getD i 0 ∈ epsilon_values ∧
      (∀ j, j < epsilon_values.length → ∃ m_est,
        lsqr_solution G d (epsilon_values.getD j 0) = .ok m_est ∧
        scores.getD j 0 = |residual d G m_est - noise_norm ^ 2|) ∧
      (∀ j, j < scores.length → scores.getD i 0 ≤ scores.getD j 0) ∧
      (∀ j, j < i → scores.getD i 0 < scores.getD j 0) := by
  have hlen := scoresList_length hs
  have hsne : scores ≠ [] := by
    intro h0
    rw [h0] at hlen
    exact hne (List.length_eq_zero.mp hlen.symm)
  obtain ⟨hlt, hmin, hfirst⟩ := argminIdx_spec scores hsne
  have hlt' : argminIdx scores < epsilon_values.length := by
    rw [← hlen]
    exact hlt
  refine ⟨argminIdx scores, hlt', ?_, ?_, scoresList_getD hs, hmin, hfirst⟩
  · unfold find_optimal_epsilon
    rw [hs]
    cases scores with
    | nil => exact absurd rfl hsne
    | cons a tl => simp [npArgmin]
  · rw [List.getD_eq_getElem epsilon_values 0 hlt']
    exact List.getElem_mem hlt'

/-- Witness for C2 at `G = [[1]]`, `d = [2]`, candidates `[0, 1]`,
`noise_norm = 0` (score list `[0, 1]`). -/
theorem C2_first_argmin_witness :
    ∃ i, i < ([(0 : ℚ), 1]).length ∧
      find_optimal_epsilon !![(1 : ℚ)] ![2] [0, 1] 0 = .ok (([(0 : ℚ), 1]).getD i 0) ∧
      ([(0 : ℚ), 1]).getD i 0 ∈ [(0 : ℚ), 1] ∧
      (∀ j, j < ([(0 : ℚ), 1]).length → ∃ m_est,
        lsqr_solution !![(1 : ℚ)] ![2] (([(0 : ℚ), 1]).getD j 0) = .ok m_est ∧
        ([(0 : ℚ), 1]).getD j 0 = |residual ![2] !![(1 : ℚ)] m_est - (0 : ℚ) ^ 2|) ∧
      (∀ j, j < ([(0 : ℚ), 1]).length → ([(0 : ℚ), 1]).getD i 0 ≤ ([(0 : ℚ), 1]).getD j 0) ∧
      (∀ j, j < i → ([(0 : ℚ), 1]).getD i 0 < ([(0 : ℚ), 1]).getD j 0) := by
  have hs0 : lsqr_solution !![(1 : ℚ)] ![2] 0 = .ok ![2] := by
    norm_num [lsqr_solution, npInv, npDotMV, Matrix.det_fin_one,
      Matrix.adjugate_fin_one, Matrix.mul_apply, Fin.sum_univ_succ]
    funext i
    fin_cases i
    norm_num [Matrix.mulVec, Matrix.dotProduct, Matrix.mul_apply,
      Fin.sum_univ_succ, Matrix.vecHead, Matrix.vecTail, Matrix.transpose_apply,
      Matrix.smul_apply]
  have hs1 : lsqr_solution !![(1 : ℚ)] ![2] 1 = .ok ![1] := by
    norm_num [lsqr_solution, npInv, npDotMV, Matrix.det_fin_one,
      Matrix.adjugate_fin_one, Matrix.mul_apply, Fin.sum_univ_succ]
    funext i
    fin_cases i
    norm_num [Matrix.mulVec, Matrix.dotProduct, Matrix.mul_apply,
      Fin.sum_univ_succ, Matrix.vecHead, Matrix.vecTail, Matrix.transpose_apply,
      Matrix.smul_apply]
  have hr0 : residual ![(2 : ℚ)] !![(1 : ℚ)] ![2] = 0 := by
    norm_num [residual, sqnorm, Matrix.mulVec, Matrix.dotProduct,
      Fin.sum_univ_succ]
  have hr1 : residual ![(2 : ℚ)] !![(1 : ℚ)] ![1] = 1 := by
    norm_num [residual, sqnorm, Matrix.mulVec, Matrix.dotProduct,
      Fin.sum_univ_succ]
  have hsc : scoresList !![(1 : ℚ)] ![2] 0 [0, 1] = .ok [0, 1] := by
    simp only [scoresList, hs0, hs1, hr0, hr1]
    norm_num
  exact C2_first_argmin !![(1 : ℚ)] ![2] [0, 1] 0 [0, 1] hsc (by simp)

/-- Counterexample to C6: the source performs no eager input validation and
has no `InvalidArgumentError`.  At `G = [[1,1],[1,1]]` with a mismatched
length-3 `d`, the call fails with the singular-matrix `LinAlgError` raised by
the inversion itself, so the inversion is attempted despite the dimension
mismatch; at `G = [[1]]` with a mismatched length-2 `d`, the failure is the
downstream shape `ValueError` of the final product, after a successful
inversion; a negative damping coefficient is accepted and returns a result;
a negative noise norm with an empty candidate list fails only in `np.argmin`
with `ValueError`. -/
theorem C6_counterexample :
    lsqr_solution !![(1 : ℚ), 1; 1, 1] ![1, 2, 3] 0 = .error .LinAlgError ∧
    lsqr_solution !![(1 : ℚ)] ![1, 2] 0 = .error .ValueError ∧
    lsqr_solution !![(1 : ℚ)] ![2] (-1) = .ok ![1] ∧
    find_optimal_epsilon !![(1 : ℚ)] ![2] [] (-1) = .error .ValueError := by
  refine ⟨?_, ?_, ?_, rfl⟩
  · norm_num [lsqr_solution, npInv, npDotMV, Matrix.det_fin_two,
      Matrix.mul_apply, Fin.sum_univ_succ]
  · norm_num [lsqr_solution, npInv, npDotMV, Matrix.det_fin_one,
      Matrix.adjugate_fin_one, Matrix.mul_apply, Fin.sum_univ_succ]
  · norm_num [lsqr_solution, npInv, npDotMV, Matrix.det_fin_one,
      Matrix.adjugate_fin_one, Matrix.mul_apply, Fin.sum_univ_succ]
    funext i
    fin_cases i
    norm_num [Matrix.mulVec, Matrix.dotProduct, Matrix.mul_apply,
      Fin.sum_univ_succ, Matrix.vecHead, Matrix.vecTail, Matrix.transpose_apply,
      Matrix.smul_apply]

/-- C6 as amended: no eager validation is performed and no
`InvalidArgumentError` exists.  A dimension mismatch between `G` and `d`
surfaces only as a downstream numeric failure: the matrix inversion is
attempted first (a singular normal matrix yields `LinAlgError` even for
mismatched `d`), and with an invertible normal matrix the mismatch yields the
shape `ValueError` of the final product; an empty candidate sequence fails in
the `np.argmin` step with `ValueError`; negative damping coefficients and
negative noise norms are accepted without any error, behaving like their
absolute values. -/
theorem C6_amended {N M nd : ℕ} (G : Matrix (Fin N) (Fin M) ℚ)
    (dm : Fin N → ℚ) (d : Fin nd → ℚ) (ε nn : ℚ) (eps : List ℚ) :
    ((Gᵀ * G + ε ^ 2 • (1 : Matrix (Fin M) (Fin M) ℚ)).det = 0 →
      lsqr_solution G d ε = .error .LinAlgError) ∧
    (nd ≠ N → (Gᵀ * G + ε ^ 2 • (1 : Matrix (Fin M) (Fin M) ℚ)).det ≠ 0 →
      lsqr_solution G d ε = .error .ValueError) ∧
    find_optimal_epsilon G dm [] nn = .error .ValueError ∧
    lsqr_solution G d (-ε) = lsqr_solution G d ε ∧
    find_optimal_epsilon G dm eps (-nn) = find_optimal_epsilon G dm eps nn := by
  refine ⟨lsqr_error_of_det_eq G d ε, fun hnd hdet => ?_, rfl,
    by simp only [lsqr_solution, neg_sq], ?_⟩
  · unfold lsqr_solution npInv npDotMV
    simp only [hdet, if_false]
    rw [dif_neg (fun hNd => hnd hNd.symm)]
  · unfold find_optimal_epsilon
    rw [scoresList_neg]

/-- Witness for C6 as amended, applied at two concrete inputs: a singular
mismatched call and an invertible mismatched call. -/
theorem C6_amended_witness :
    lsqr_solution !![(1 : ℚ), 1; 1, 1] ![1, 2, 3] 0 = .error .LinAlgError ∧
    lsqr_solution !![(1 : ℚ)] ![1, 2] 0 = .error .ValueError := by
  constructor
  · refine (C6_amended !![(1 : ℚ), 1; 1, 1] ![1, 2] ![1, 2, 3] 0 0 []).1 ?_
    norm_num [Matrix.det_fin_two, Matrix.mul_apply, Fin.sum_univ_succ]
  · refine (C6_amended !![(1 : ℚ)] ![2] ![1, 2] 0 0 []).2.1 (by norm_num) ?_
    norm_num [Matrix.det_fin_one, Matrix.mul_apply, Fin.sum_univ_succ]

end InvDeps
